import Mathlib

/-!
Verification development for the legal-text-analyzer API.

The definitions below are shallow embeddings of the TypeScript services:
text is modelled as `List Char`, JavaScript `Map` objects as association
lists that preserve insertion order, machine time as `Nat` milliseconds,
and fallible asynchronous calls as `Except` values.
-/

namespace LegalTextAnalyzer

/-- The JavaScript whitespace class used by the repository's regular
expressions (the common members: space, tab, line feed, vertical tab,
form feed, carriage return, and no-break space). -/
def jsWs (c : Char) : Bool :=
  c = ' ' || c = '\t' || c = '\n' || c = Char.ofNat 11 || c = Char.ofNat 12 ||
  c = Char.ofNat 13 || c = Char.ofNat 160

/-- The non-whitespace characters of a character list, in order. -/
def stripWs (l : List Char) : List Char := l.filter (fun c => !jsWs c)

/-- JavaScript `String.prototype.trim`: drop whitespace from both ends. -/
def jsTrim (l : List Char) : List Char :=
  ((l.dropWhile jsWs).reverse.dropWhile jsWs).reverse

/-- Lookahead test for the article-boundary pattern of `createChunks` at
the head of the suffix: a line break, then optional whitespace, then
`Art`/`art`, an optional period, optional whitespace, and at least one
digit. -/
def matchArticleLookahead (l : List Char) : Bool :=
  match l with
  | '\n' :: rest =>
    match rest.dropWhile jsWs with
    | a :: 'r' :: 't' :: r2 =>
      (a = 'A' || a = 'a') &&
      (let r3 := match r2 with
                 | '.' :: t => t
                 | t => t
       match r3.dropWhile jsWs with
       | d :: _ => d.isDigit
       | [] => false)
    | _ => false
  | _ => false

/-- Core loop of splitting on a zero-width lookahead pattern: a split
happens before every position, other than a segment start, at which the
pattern matches the remaining suffix. -/
def splitLookaheadGo (f : List Char → Bool) (acc : List Char) :
    List Char → List (List Char)
  | [] => [acc.reverse]
  | c :: rest =>
    if !acc.isEmpty && f (c :: rest) then
      acc.reverse :: splitLookaheadGo f [c] rest
    else
      splitLookaheadGo f (c :: acc) rest

/-- JavaScript `text.split(pattern)` for a zero-width lookahead pattern. -/
def splitLookahead (f : List Char → Bool) (text : List Char) : List (List Char) :=
  splitLookaheadGo f [] text

/-- Core loop of JavaScript `text.split(sep)` where `sep` greedily
matches runs of two or more line feeds.  `acc` holds the current segment
reversed and `nl` counts the pending run of line feeds just read: a run
of length at least two is a separator, a shorter run belongs to the
segment. -/
def splitParasGo (acc : List Char) (nl : Nat) : List Char → List (List Char)
  | [] =>
    if nl ≥ 2 then [acc.reverse, []]
    else [acc.reverse ++ List.replicate nl '\n']
  | c :: rest =>
    if c = '\n' then splitParasGo acc (nl + 1) rest
    else if nl ≥ 2 then acc.reverse :: splitParasGo [c] 0 rest
    else splitParasGo (c :: (List.replicate nl '\n' ++ acc)) 0 rest

/-- JavaScript `text.split(pattern)` for the paragraph separator, a run
of at least two line feeds. -/
def splitParagraphs (text : List Char) : List (List Char) :=
  splitParasGo [] 0 text

/-- The chunking parameters read from `config.textProcessing`. -/
structure ChunkCfg where
  chunkSize : Nat
  minChunkSize : Nat
  deriving DecidableEq, Repr

/-- The configured text-processing sizes of `src/config`. -/
def textProcessingCfg : ChunkCfg := { chunkSize := 3000, minChunkSize := 500 }

/-- Accumulate/flush loop shared by both branches of `createChunks`:
flush the running chunk (trimmed) whenever appending the next segment
would exceed the chunk size while the running chunk already exceeds the
minimum size; otherwise append the segment behind the separator.  A
trailing accumulator is flushed when its trimmed form is non-empty. -/
def accumGo (cfg : ChunkCfg) (sep : List Char) (cur : List Char) :
    List (List Char) → List (List Char)
  | [] => if jsTrim cur = [] then [] else [jsTrim cur]
  | a :: rest =>
    if cur.length + a.length > cfg.chunkSize && cur.length > cfg.minChunkSize then
      jsTrim cur :: accumGo cfg sep a rest
    else
      accumGo cfg sep (cur ++ sep ++ a) rest

/-- `LegalTextAnalysisService.createChunks`: split on article boundaries
when that yields more than one non-blank segment, otherwise on paragraph
boundaries, then accumulate segments into chunks. -/
def createChunks (cfg : ChunkCfg) (text : List Char) : List (List Char) :=
  let articleSplits :=
    (splitLookahead matchArticleLookahead text).filter (fun s => !(jsTrim s).isEmpty)
  if articleSplits.length > 1 then
    accumGo cfg ['\n'] [] articleSplits
  else
    let paragraphs :=
      (splitParagraphs text).filter (fun s => !(jsTrim s).isEmpty)
    accumGo cfg ['\n', '\n'] [] paragraphs

/-! ### Tokenization and word statistics -/

/-- JavaScript `toLowerCase` restricted to the Basic Latin and Latin-1
letters that occur in the analyzed texts. -/
def jsToLower (c : Char) : Char :=
  let n := c.toNat
  if 65 ≤ n ∧ n ≤ 90 then Char.ofNat (n + 32)
  else if 192 ≤ n ∧ n ≤ 222 ∧ n ≠ 215 then Char.ofNat (n + 32)
  else c

/-- JavaScript word-class characters (ASCII letters, digits, underscore). -/
def jsWordChar (c : Char) : Bool :=
  let n := c.toNat
  (97 ≤ n && n ≤ 122) || (65 ≤ n && n ≤ 90) || (48 ≤ n && n ≤ 57) || n == 95

/-- The accented letters preserved by `extractWords`. -/
def accentedKeep : List Char := "àáâãäéèêëíìîïóòôõöúùûüçñ".data

/-- A character survives the punctuation-stripping replacement of
`extractWords` (word characters, whitespace, and listed accents). -/
def keepChar (c : Char) : Bool := jsWordChar c || jsWs c || accentedKeep.contains c

/-- Core loop of JavaScript `split` on runs of whitespace.  `sep` records
whether a separator run was just read. -/
def splitWsGo (acc : List Char) (sep : Bool) : List Char → List (List Char)
  | [] => if sep then [acc.reverse, []] else [acc.reverse]
  | c :: rest =>
    if jsWs c then splitWsGo acc true rest
    else if sep then acc.reverse :: splitWsGo [c] false rest
    else splitWsGo (c :: acc) false rest

/-- JavaScript `text.split(pattern)` on one-or-more whitespace. -/
def splitWsRun (text : List Char) : List (List Char) :=
  splitWsGo [] false text

/-- The stopword set built in the service constructor: common Portuguese
stopwords plus `config.textProcessing.stopwordsJuridicas`. -/
def stopwords : List (List Char) :=
  (["a", "o", "e", "de", "da", "do", "em", "para", "com", "por", "que",
    "os", "as", "dos", "das", "no", "na", "nos", "nas", "um", "uma",
    "ao", "à", "pelo", "pela", "este", "esta", "esse", "essa", "aquele",
    "aquela", "seu", "sua", "nosso", "nossa", "ele", "ela", "eles", "elas",
    "considerando", "outrossim", "art", "artigo", "parágrafo",
    "inciso", "alínea", "caput", "dispositivo", "normativo",
    "legal", "lei", "decreto", "portaria", "resolução",
    "instrução", "normativa", "regulamento", "código"] : List String).map String.data

/-- `config.textProcessing.legalTerms`, the legal-term vocabulary. -/
def legalTermsVocab : List (List Char) :=
  (["contrato", "cláusula", "rescisão", "indenização", "multa",
    "fiador", "locatário", "locador", "devedor", "credor",
    "obrigação", "direito", "dever", "responsabilidade", "prazo",
    "notificação", "intimação", "citação", "sentença", "acórdão",
    "recurso", "apelação", "agravo", "embargo", "mandado",
    "petição", "contestação", "réplica", "tréplica", "parecer",
    "laudo", "perícia", "prova", "testemunha", "depoimento",
    "jurisprudência", "súmula", "precedente", "coisa julgada",
    "trânsito em julgado", "prescrição", "decadência", "nulidade",
    "anulabilidade", "vício", "defeito", "dano", "prejuízo",
    "lucro cessante", "dano emergente", "mora", "inadimplemento",
    "cumprimento", "execução", "penhora", "arresto", "sequestro",
    "hipoteca", "penhor", "fiança", "caução", "garantia"] : List String).map String.data

/-- `LegalTextAnalysisService.extractWords`: lowercase, replace
punctuation by spaces, split on whitespace, keep tokens longer than two
characters that are not stopwords. -/
def extractWords (text : List Char) : List (List Char) :=
  let lowered := text.map jsToLower
  let replaced := lowered.map (fun c => if keepChar c then c else ' ')
  (splitWsRun replaced).filter
    (fun w => decide (w.length > 2) && !stopwords.contains w)

/-- JavaScript `Map.get` over an insertion-ordered association list. -/
def mapGet {κ β : Type} [DecidableEq κ] (m : List (κ × β)) (k : κ) : Option β :=
  (m.find? (fun p => p.1 = k)).map (fun p => p.2)

/-- JavaScript `Map.set`: replace an existing key in place, otherwise
append the binding at the end. -/
def mapSet {κ β : Type} [DecidableEq κ] : List (κ × β) → κ → β → List (κ × β)
  | [], k, v => [(k, v)]
  | p :: rest, k, v => if p.1 = k then (k, v) :: rest else p :: mapSet rest k v

/-- `LegalTextAnalysisService.calculateWordFrequency`. -/
def calculateWordFrequency (words : List (List Char)) : List (List Char × Nat) :=
  words.foldl (fun m w => mapSet m w ((mapGet m w).getD 0 + 1)) []

/-- Insert `x` behind every element strictly preceding it (`gt`), ahead
of the first element that does not: the stable insertion step. -/
def stableInsertBy {γ : Type} (gt : γ → γ → Bool) (x : γ) : List γ → List γ
  | [] => [x]
  | y :: rest => if gt y x then y :: stableInsertBy gt x rest else x :: y :: rest

/-- A stable sort placing elements related by `gt` first; ties keep the
original order.  JavaScript `Array.prototype.sort` is stable, so any
stable algorithm realizes the same function. -/
def stableSortBy {γ : Type} (gt : γ → γ → Bool) : List γ → List γ
  | [] => []
  | x :: rest => stableInsertBy gt x (stableSortBy gt rest)

/-- Stable descending sort by count, as JavaScript
`sort((a, b) => b[1] - a[1])` on `Map` entries. -/
def sortByCountDesc {κ : Type} (l : List (κ × Nat)) : List (κ × Nat) :=
  stableSortBy (fun a b => decide (a.2 > b.2)) l

/-- `LegalTextAnalysisService.getTopWords`. -/
def getTopWords (frequency : List (List Char × Nat)) (limit : Nat) :
    List (List Char × Nat) :=
  (sortByCountDesc frequency).take limit

/-- `LegalTextAnalysisService.extractLegalTerms`: count the tokens that
belong to the legal vocabulary, then sort descending by count. -/
def extractLegalTerms (words : List (List Char)) : List (List Char × Nat) :=
  let termFrequency := words.foldl
    (fun m w => if legalTermsVocab.contains w then
                  mapSet m w ((mapGet m w).getD 0 + 1)
                else m) []
  sortByCountDesc termFrequency

/-! ### Structural metrics -/

/-- Match of the article pattern (`Art`/`art`, optional period, optional
whitespace, one or more digits) at the head of the suffix, returning the
match length. -/
def matchArtAt : List Char → Option Nat
  | a :: 'r' :: 't' :: rest =>
    if a = 'A' || a = 'a' then
      let pr := match rest with
                | '.' :: t => (1, t)
                | t => (0, t)
      let nws := (pr.2.takeWhile jsWs).length
      let r2 := pr.2.drop nws
      let nd := (r2.takeWhile (fun c => c.isDigit)).length
      if nd > 0 then some (3 + pr.1 + nws + nd) else none
    else none
  | _ => none

/-- Match of the section pattern (`Seção`/`seção`, whitespace, one or
more of roman numerals I/V/X or digits) at the head of the suffix. -/
def matchSecaoAt : List Char → Option Nat
  | s :: 'e' :: 'ç' :: 'ã' :: 'o' :: rest =>
    if s = 'S' || s = 's' then
      let nws := (rest.takeWhile jsWs).length
      let r2 := rest.drop nws
      let nr := (r2.takeWhile (fun c => c = 'I' || c = 'V' || c = 'X' || c.isDigit)).length
      if nws > 0 && nr > 0 then some (5 + nws + nr) else none
    else none
  | _ => none

/-- Count the non-overlapping matches of a pattern that must start at a
word boundary.  `skip` counts positions still covered by the previous
match and `prevWord` records whether the previous character was a word
character. -/
def countMatchesGo (m : List Char → Option Nat) (skip : Nat) (prevWord : Bool) :
    List Char → Nat
  | [] => 0
  | c :: rest =>
    match skip with
    | k + 1 => countMatchesGo m k true rest
    | 0 =>
      match (if prevWord then none else m (c :: rest)) with
      | some len => 1 + countMatchesGo m (len - 1) true rest
      | none => countMatchesGo m 0 (jsWordChar c) rest

/-- The structure record of `LegalAnalysisResult`. -/
structure TextStructure where
  paragraphs : Nat
  articles : Nat
  sections : Nat
  deriving DecidableEq, Repr

/-- `LegalTextAnalysisService.analyzeStructure`. -/
def analyzeStructure (text : List Char) : TextStructure :=
  { paragraphs := ((splitParagraphs text).filter (fun p => !(jsTrim p).isEmpty)).length
  , articles := countMatchesGo matchArtAt 0 false text
  , sections := countMatchesGo matchSecaoAt 0 false text }

/-! ### Result records and consolidation -/

/-- The `ChunkResult` record of `src/types`. -/
structure ChunkResult where
  chunkIndex : Nat
  sentiment : Option String
  topWords : List (List Char × Nat)
  legalTerms : List (List Char × Nat)
  wordCount : Nat
  error : Option String
  deriving DecidableEq, Repr

/-- The sentiment part of `LegalAnalysisResult`; the score is kept as an
exact rational (the code only ever produces 0.5, -0.5 and 0). -/
structure SentimentResult where
  overall : String
  score : ℚ
  analysis : String
  deriving DecidableEq, Repr

/-- The `LegalAnalysisResult` record of `src/types`. -/
structure LegalAnalysisResult where
  wordCount : Nat
  characterCount : Nat
  topWords : List (List Char × Nat)
  legalTerms : List (List Char × Nat)
  sentiment : Option SentimentResult
  docStructure : TextStructure
  processingTime : Nat
  chunksProcessed : Option Nat
  deriving DecidableEq, Repr

/-- `LegalTextAnalysisService.consolidateChunkResults`: sum the word
counts, additively merge top-word and legal-term counts, re-sort, keep
the majority sentiment, and recompute the structure over the original
text.  The `chunksProcessed` and `processingTime` fields are filled in
by the caller. -/
def consolidateChunkResults (chunkResults : List ChunkResult)
    (originalText : List Char) : LegalAnalysisResult :=
  let totalWords := chunkResults.foldl (fun sum c => sum + c.wordCount) 0
  let allTopWords := chunkResults.foldl
    (fun m c => c.topWords.foldl
      (fun m2 wc => mapSet m2 wc.1 ((mapGet m2 wc.1).getD 0 + wc.2)) m) []
  let topWords := (sortByCountDesc allTopWords).take 5
  let allLegalTerms := chunkResults.foldl
    (fun m c => c.legalTerms.foldl
      (fun m2 tc => mapSet m2 tc.1 ((mapGet m2 tc.1).getD 0 + tc.2)) m) []
  let legalTerms := sortByCountDesc allLegalTerms
  let sentiments := chunkResults.filterMap (fun c => c.sentiment)
  let overallSentiment :=
    if sentiments.length > 0 then
      let sentimentCounts : List (String × Nat) :=
        [("positivo", (sentiments.filter (fun s => s = "positivo")).length),
         ("negativo", (sentiments.filter (fun s => s = "negativo")).length),
         ("neutro", (sentiments.filter (fun s => s = "neutro")).length)]
      let dominant := ((sortByCountDesc sentimentCounts).headD ("neutro", 0)).1
      some { overall := dominant
           , score := if dominant = "positivo" then (1 : ℚ) / 2
                      else if dominant = "negativo" then -(1 : ℚ) / 2 else 0
           , analysis := "Análise consolidada de múltiplos chunks" }
    else none
  { wordCount := totalWords
  , characterCount := originalText.length
  , topWords := topWords
  , legalTerms := legalTerms
  , sentiment := overallSentiment
  , docStructure := analyzeStructure originalText
  , processingTime := 0
  , chunksProcessed := none }

/-! ### Chunked analysis

The sentiment provider is the only suspension point of a chunk analysis
and the only part of it that can throw; it is modelled as a function
from the chunk index to an `Except` outcome. -/

/-- `LegalTextAnalysisService.analyzeChunk`: tokenize and count the
chunk, requesting sentiment only for the first three chunk indices. -/
def analyzeChunkE (sent : Nat → Except String String) (chunk : List Char)
    (index : Nat) : Except String ChunkResult :=
  let words := extractWords chunk
  let wordFrequency := calculateWordFrequency words
  let topWords := getTopWords wordFrequency 10
  let legalTerms := extractLegalTerms words
  if index < 3 then
    match sent index with
    | Except.error e => Except.error e
    | Except.ok overall =>
      Except.ok { chunkIndex := index, sentiment := some overall
                , topWords := topWords, legalTerms := legalTerms
                , wordCount := words.length, error := none }
  else
    Except.ok { chunkIndex := index, sentiment := none
              , topWords := topWords, legalTerms := legalTerms
              , wordCount := words.length, error := none }

/-- The degraded result substituted for a chunk whose analysis threw. -/
def degradedChunk (index : Nat) : ChunkResult :=
  { chunkIndex := index, sentiment := none, topWords := [], legalTerms := []
  , wordCount := 0, error := some "Falha ao analisar chunk" }

/-- One chunk of the batch loop of `analyzeWithChunking`: the catch
block converts any error into a degraded `ChunkResult`. -/
def processOneChunk (sent : Nat → Except String String) (chunk : List Char)
    (index : Nat) : ChunkResult :=
  match analyzeChunkE sent chunk index with
  | Except.ok r => r
  | Except.error _ => degradedChunk index

/-- The chunk-result list accumulated by `analyzeWithChunking`; batches
preserve chunk order, so the list is in chunk-index order. -/
def chunkResultsOf (sent : Nat → Except String String) (cfg : ChunkCfg)
    (text : List Char) : List ChunkResult :=
  (createChunks cfg text).enum.map (fun p => processOneChunk sent p.2 p.1)

/-- `processedChunks` after the batch loop: the number of chunks whose
analysis succeeded (the counter is not incremented in the catch block). -/
def processedCount (sent : Nat → Except String String) (cfg : ChunkCfg)
    (text : List Char) : Nat :=
  ((createChunks cfg text).enum.filter
    (fun p => (analyzeChunkE sent p.2 p.1).toOption.isSome)).length

/-- The value `analyzeWithChunking` returns: the consolidation of the
chunk results with the processed-chunk count filled in. -/
def analysisResultOf (sent : Nat → Except String String) (cfg : ChunkCfg)
    (text : List Char) : LegalAnalysisResult :=
  { consolidateChunkResults (chunkResultsOf sent cfg text) text with
    chunksProcessed := some (processedCount sent cfg text) }

/-- `LegalTextAnalysisService.analyzeWithChunking`: split, analyze every
chunk with per-chunk error recovery, consolidate.  The `Except` layer
records that the surrounding job may propagate errors; the body never
produces one. -/
def analyzeWithChunking (sent : Nat → Except String String) (cfg : ChunkCfg)
    (text : List Char) : Except String LegalAnalysisResult :=
  Except.ok (analysisResultOf sent cfg text)

/-! ### Progress notifications -/

/-- JavaScript `Math.round(current / total * 100)` over the exact
rational value: the floor of the quantity plus one half. -/
def pctRound (current total : Nat) : Nat := (200 * current + total) / (2 * total)

/-- The `(current, percentage)` progress notifications of
`analyzeWithChunking` under an arbitrary chunk completion order:
`order` lists, in real-time completion order, whether each finished
chunk analysis succeeded; each success atomically increments the shared
counter and then emits. -/
def progressEmits (total : Nat) (counter : Nat) : List Bool → List (Nat × Nat)
  | [] => []
  | ok :: rest =>
    if ok then
      (counter + 1, pctRound (counter + 1) total) :: progressEmits total (counter + 1) rest
    else progressEmits total counter rest

/-! ### In-memory job queue -/

/-- The `AnalysisJob` record of `src/types` (the optional file-source
fields play no role in the queue logic). -/
structure AnalysisJob where
  analysisId : String
  text : List Char
  priority : Nat
  attempts : Nat
  deriving DecidableEq, Repr

/-- The mutable state of the memory backend of `QueueService`: the
priority-ordered job list and the set of claimed job ids. -/
structure QueueState where
  memoryQueue : List AnalysisJob
  processing : List String
  deriving DecidableEq, Repr

/-- JavaScript `Set.add`. -/
def setAdd (x : String) (s : List String) : List String :=
  if x ∈ s then s else s ++ [x]

/-- JavaScript `Set.delete`. -/
def setDelete (x : String) (s : List String) : List String :=
  s.filter (fun y => y ≠ x)

/-- `QueueService.calculatePriority`: larger texts get higher priority. -/
def calculatePriority (textLength : Nat) : Nat :=
  if textLength > 100000 then 3
  else if textLength > 50000 then 2
  else if textLength > 10000 then 1
  else 0

/-- `QueueService.addJob` (memory branch): set the priority, push, and
re-sort descending by priority (stable, as the JavaScript sort). -/
def addJob (s : QueueState) (job : AnalysisJob) : QueueState :=
  let job1 := { job with priority := calculatePriority job.text.length }
  { s with memoryQueue :=
      (stableSortBy (fun a b => decide (a.priority > b.priority))
        (s.memoryQueue ++ [job1])) }

/-- `QueueService.getNextJob` (memory branch): return the first job not
being processed and claim its id. -/
def getNextJob (s : QueueState) : Option AnalysisJob × QueueState :=
  match s.memoryQueue.find? (fun j => decide (j.analysisId ∉ s.processing)) with
  | some j => (some j, { s with processing := setAdd j.analysisId s.processing })
  | none => (none, s)

/-- `QueueService.completeJob` (memory branch). -/
def completeJob (s : QueueState) (analysisId : String) : QueueState :=
  { memoryQueue := s.memoryQueue.filter (fun j => j.analysisId ≠ analysisId)
  , processing := setDelete analysisId s.processing }

/-- Increment the attempt counter of the first job carrying the id
(JavaScript mutates the object found by `find`). -/
def bumpFirst (analysisId : String) : List AnalysisJob → List AnalysisJob
  | [] => []
  | j :: rest =>
    if j.analysisId = analysisId then { j with attempts := j.attempts + 1 } :: rest
    else j :: bumpFirst analysisId rest

/-- The observable outcome of `failJob`: the immediate post-state, the
delay of the scheduled retry notification (if one was scheduled), and
the job reported permanently failed (if any). -/
structure FailOutcome where
  state : QueueState
  retryDelay : Option Nat
  failedJob : Option AnalysisJob
  deriving DecidableEq, Repr

/-- `QueueService.failJob` (memory branch): drop the id from the
processing set, increment the attempts of the job, and either remove it
permanently (attempt budget exhausted) or schedule a retry notification
after `2 ^ attempts * 1000` milliseconds. -/
def failJob (maxRetries : Nat) (s : QueueState) (analysisId : String) : FailOutcome :=
  let processing1 := setDelete analysisId s.processing
  match s.memoryQueue.find? (fun j => decide (j.analysisId = analysisId)) with
  | none => { state := { s with processing := processing1 }
            , retryDelay := none, failedJob := none }
  | some j =>
    let bumped := { j with attempts := j.attempts + 1 }
    let queue1 := bumpFirst analysisId s.memoryQueue
    if bumped.attempts ≥ maxRetries then
      { state := { memoryQueue := queue1.filter (fun k => k.analysisId ≠ analysisId)
                 , processing := processing1 }
      , retryDelay := none, failedJob := some bumped }
    else
      { state := { memoryQueue := queue1, processing := processing1 }
      , retryDelay := some (2 ^ bumped.attempts * 1000), failedJob := none }

/-- The body of the retry timer in `failJob`: when the delay elapses it
deletes the id from the processing set again and re-emits the job-added
notification. -/
def retryFire (s : QueueState) (analysisId : String) : QueueState :=
  { s with processing := setDelete analysisId s.processing }

/-! ### Result cache -/

/-- A stored cache entry. -/
structure CacheEntry (α : Type) where
  data : α
  expiresAt : Nat
  deriving DecidableEq, Repr

/-- The state of `CacheService`: the map plus the hit/miss counters. -/
structure CacheState (α : Type) where
  cache : List (String × CacheEntry α)
  hits : Nat
  misses : Nat
  deriving DecidableEq, Repr

/-- JavaScript `Map.delete` (the single binding of the key). -/
def mapErase {κ β : Type} [DecidableEq κ] : List (κ × β) → κ → List (κ × β)
  | [], _ => []
  | p :: rest, k => if p.1 = k then rest else p :: mapErase rest k

/-- JavaScript `ttl || config.cache.ttl`: a missing or zero `ttl`
argument falls back to the configured default. -/
def jsOrDefault (ttl : Option Nat) (dflt : Nat) : Nat :=
  match ttl with
  | some v => if v = 0 then dflt else v
  | none => dflt

/-- `CacheService.set`: store the value with absolute expiry
`now + (ttl || config.cache.ttl)`. -/
def cacheSet {α : Type} (cfgTtl : Nat) (s : CacheState α) (now : Nat)
    (key : String) (value : α) (ttl : Option Nat) : CacheState α :=
  { s with cache :=
      mapSet s.cache key { data := value, expiresAt := now + jsOrDefault ttl cfgTtl } }

/-- `CacheService.get`: a present, unexpired entry is a hit; an entry
whose expiry has passed is deleted and counted as a miss. -/
def cacheGet {α : Type} (s : CacheState α) (now : Nat) (key : String) :
    Option α × CacheState α :=
  match mapGet s.cache key with
  | none => (none, { s with misses := s.misses + 1 })
  | some entry =>
    if now > entry.expiresAt then
      (none, { s with cache := mapErase s.cache key, misses := s.misses + 1 })
    else
      (some entry.data, { s with hits := s.hits + 1 })

/-! ### Content fingerprint

Modelled from the spec: `CacheService.generateKey` calls Node's built-in
`crypto` module (`createHash('sha256').update(text).digest('hex')`),
which is not part of this repository.  The digest is modelled as the
standard SHA-256 function (FIPS 180-4) over the UTF-8 bytes of the
text, rendered as lowercase hexadecimal. -/

/-- Truncation to a 32-bit word. -/
def w32 (x : Nat) : Nat := x % 4294967296

/-- 32-bit right rotation. -/
def rotr32 (n x : Nat) : Nat := x / 2 ^ n + x % 2 ^ n * 2 ^ (32 - n)

/-- SHA-256 big sigma-0. -/
def bSig0 (x : Nat) : Nat := rotr32 2 x ^^^ rotr32 13 x ^^^ rotr32 22 x

/-- SHA-256 big sigma-1. -/
def bSig1 (x : Nat) : Nat := rotr32 6 x ^^^ rotr32 11 x ^^^ rotr32 25 x

/-- SHA-256 small sigma-0. -/
def sSig0 (x : Nat) : Nat := rotr32 7 x ^^^ rotr32 18 x ^^^ x / 2 ^ 3

/-- SHA-256 small sigma-1. -/
def sSig1 (x : Nat) : Nat := rotr32 17 x ^^^ rotr32 19 x ^^^ x / 2 ^ 10

/-- SHA-256 choice function (32-bit complement of `x` against `z`). -/
def shaCh (x y z : Nat) : Nat := (x &&& y) ^^^ ((4294967295 - w32 x) &&& z)

/-- SHA-256 majority function. -/
def shaMaj (x y z : Nat) : Nat := (x &&& y) ^^^ (x &&& z) ^^^ (y &&& z)

/-- The eight working variables of the compression function. -/
structure Hash8 where
  a : Nat
  b : Nat
  c : Nat
  d : Nat
  e : Nat
  f : Nat
  g : Nat
  h : Nat
  deriving DecidableEq, Repr

/-- The SHA-256 initial hash value (FIPS 180-4 section 5.3.3, written
in decimal). -/
def shaInit : Hash8 :=
  ⟨1779033703, 3144134277, 1013904242, 2773480762,
   1359893119, 2600822924, 528734635, 1541459225⟩

/-- The SHA-256 round constants (FIPS 180-4 section 4.2.2, written in
decimal). -/
def shaK : List Nat :=
  [1116352408, 1899447441, 3049323471, 3921009573,
   961987163, 1508970993, 2453635748, 2870763221,
   3624381080, 310598401, 607225278, 1426881987,
   1925078388, 2162078206, 2614888103, 3248222580,
   3835390401, 4022224774, 264347078, 604807628,
   770255983, 1249150122, 1555081692, 1996064986,
   2554220882, 2821834349, 2952996808, 3210313671,
   3336571891, 3584528711, 113926993, 338241895,
   666307205, 773529912, 1294757372, 1396182291,
   1695183700, 1986661051, 2177026350, 2456956037,
   2730485921, 2820302411, 3259730800, 3345764771,
   3516065817, 3600352804, 4094571909, 275423344,
   430227734, 506948616, 659060556, 883997877,
   958139571, 1322822218, 1537002063, 1747873779,
   1955562222, 2024104815, 2227730452, 2361852424,
   2428436474, 2756734187, 3204031479, 3329325298]

/-- Big-endian packing of a 64-byte block into sixteen 32-bit words. -/
def toWords : List Nat → List Nat
  | b0 :: b1 :: b2 :: b3 :: rest =>
    (b0 * 16777216 + b1 * 65536 + b2 * 256 + b3) :: toWords rest
  | _ => []

/-- The value `k` places from the end of the schedule built so far. -/
def nthBack (l : List Nat) (k : Nat) : Nat := l.getD (l.length - k) 0

/-- Extend the sixteen block words by `n` scheduled words. -/
def extendW (w : List Nat) : Nat → List Nat
  | 0 => w
  | n + 1 =>
    let prev := extendW w n
    prev ++ [w32 (sSig1 (nthBack prev 2) + nthBack prev 7 +
                  sSig0 (nthBack prev 15) + nthBack prev 16)]

/-- The 64-word SHA-256 message schedule of one block. -/
def msgSchedule (block : List Nat) : List Nat := extendW (toWords block) 48

/-- One round of the SHA-256 compression function. -/
def shaRound (st : Hash8) (kw : Nat × Nat) : Hash8 :=
  let t1 := w32 (st.h + bSig1 st.e + shaCh st.e st.f st.g + kw.1 + kw.2)
  let t2 := w32 (bSig0 st.a + shaMaj st.a st.b st.c)
  ⟨w32 (t1 + t2), st.a, st.b, st.c, w32 (st.d + t1), st.e, st.f, st.g⟩

/-- Process one 64-byte block. -/
def processBlock (st : Hash8) (block : List Nat) : Hash8 :=
  let r := (shaK.zip (msgSchedule block)).foldl shaRound st
  ⟨w32 (st.a + r.a), w32 (st.b + r.b), w32 (st.c + r.c), w32 (st.d + r.d),
   w32 (st.e + r.e), w32 (st.f + r.f), w32 (st.g + r.g), w32 (st.h + r.h)⟩

/-- Big-endian eight-byte encoding of the bit length. -/
def lenBytes (n : Nat) : List Nat :=
  [n / 2 ^ 56 % 256, n / 2 ^ 48 % 256, n / 2 ^ 40 % 256, n / 2 ^ 32 % 256,
   n / 2 ^ 24 % 256, n / 2 ^ 16 % 256, n / 2 ^ 8 % 256, n % 256]

/-- SHA-256 padding: a `0x80` byte, zeros up to 56 modulo 64, and the
64-bit message bit length. -/
def padMessage (msg : List Nat) : List Nat :=
  let zeros := (64 - (msg.length + 9) % 64) % 64
  msg ++ 128 :: List.replicate zeros 0 ++ lenBytes (msg.length * 8)

/-- Split the padded message into 64-byte blocks.  `fuel` bounds the
number of blocks; it is instantiated with the message length, which the
block count never exceeds. -/
def chunks64 (fuel : Nat) : List Nat → List (List Nat)
  | [] => []
  | l =>
    match fuel with
    | 0 => []
    | n + 1 => l.take 64 :: chunks64 n (l.drop 64)

/-- Big-endian bytes of a 32-bit word. -/
def wordBytes (w : Nat) : List Nat :=
  [w / 2 ^ 24 % 256, w / 2 ^ 16 % 256, w / 2 ^ 8 % 256, w % 256]

/-- The 32 digest bytes of a final hash state. -/
def hashBytes (st : Hash8) : List Nat :=
  wordBytes st.a ++ wordBytes st.b ++ wordBytes st.c ++ wordBytes st.d ++
  wordBytes st.e ++ wordBytes st.f ++ wordBytes st.g ++ wordBytes st.h

/-- SHA-256 of a byte sequence. -/
def sha256Bytes (msg : List Nat) : List Nat :=
  let padded := padMessage msg
  hashBytes ((chunks64 padded.length padded).foldl processBlock shaInit)

/-- UTF-8 encoding of one Unicode scalar value. -/
def utf8EncodeChar (c : Char) : List Nat :=
  let n := c.toNat
  if n < 128 then [n]
  else if n < 2048 then [192 + n / 64, 128 + n % 64]
  else if n < 65536 then [224 + n / 4096, 128 + n / 64 % 64, 128 + n % 64]
  else [240 + n / 262144, 128 + n / 4096 % 64, 128 + n / 64 % 64, 128 + n % 64]

/-- The UTF-8 byte sequence of a string. -/
def utf8Encode (s : String) : List Nat := (s.data.map utf8EncodeChar).flatten

/-- One lowercase hexadecimal digit. -/
def hexDigitChar (n : Nat) : Char :=
  if n < 10 then Char.ofNat (48 + n) else Char.ofNat (87 + n)

/-- Two lowercase hexadecimal digits of one byte. -/
def byteHex (b : Nat) : List Char := [hexDigitChar (b / 16), hexDigitChar (b % 16)]

/-- Lowercase hexadecimal rendering of a byte sequence. -/
def bytesToHex (bs : List Nat) : List Char := (bs.map byteHex).flatten

/-- `CacheService.generateKey`: the SHA-256 digest of the UTF-8 bytes of
the text, as lowercase hexadecimal. -/
def generateKey (text : String) : List Char :=
  bytesToHex (sha256Bytes (utf8Encode text))

/-- The sixteen lowercase hexadecimal digits. -/
def hexAlphabet : List Char := "0123456789abcdef".data

/-! ### Concrete sample states used to instantiate the theorems -/

/-- A one-job queue state whose job is currently claimed. -/
def sampleClaimed : QueueState :=
  { memoryQueue := [⟨"job-1", [], 0, 0⟩], processing := ["job-1"] }

/-- A one-job queue state whose job is unclaimed. -/
def sampleUnclaimed : QueueState :=
  { memoryQueue := [⟨"job-1", [], 0, 0⟩], processing := [] }

/-- An empty cache over natural-number values. -/
def emptyNatCache : CacheState Nat := { cache := [], hits := 0, misses := 0 }

/-- A sentiment provider that always throws, used to instantiate the
chunk-failure theorem. -/
def failingSent : Nat → Except String String :=
  fun _ => Except.error "indisponivel"

/-! ## General helper lemmas -/

/-- A fold preserves any invariant its steps preserve. -/
theorem foldl_inv {γ ι : Type} {P : γ → Prop} {step : γ → ι → γ} :
    ∀ (l : List ι) (g : γ), (∀ g' x, x ∈ l → P g' → P (step g' x)) → P g →
      P (l.foldl step g) := by
  intro l
  induction l with
  | nil => intro g _ hg; simpa using hg
  | cons x rest ih =>
    intro g hstep hg
    simp only [List.foldl_cons]
    exact ih _ (fun g' y hy => hstep g' y (List.mem_cons_of_mem _ hy))
      (hstep g x (List.mem_cons_self _ _) hg)

/-- `mapSet` either keeps the key sequence or appends the new key. -/
theorem mapSet_map_fst {κ β : Type} [DecidableEq κ] (m : List (κ × β)) (k : κ) (v : β) :
    (mapSet m k v).map Prod.fst =
      if k ∈ m.map Prod.fst then m.map Prod.fst else m.map Prod.fst ++ [k] := by
  induction m with
  | nil => simp [mapSet]
  | cons p rest ih =>
    by_cases h : p.1 = k
    · simp [mapSet, h]
    · have hne : ¬ k = p.1 := fun he => h he.symm
      by_cases hk : k ∈ rest.map Prod.fst <;>
        simp [mapSet, h, ih, hk, hne]

/-- `mapSet` preserves distinctness of keys. -/
theorem mapSet_nodup {κ β : Type} [DecidableEq κ] (m : List (κ × β)) (k : κ) (v : β)
    (h : (m.map Prod.fst).Nodup) : ((mapSet m k v).map Prod.fst).Nodup := by
  rw [mapSet_map_fst]
  by_cases hk : k ∈ m.map Prod.fst
  · simpa [hk] using h
  · simp only [hk, if_false]
    rw [List.nodup_append]
    refine ⟨h, List.nodup_singleton k, ?_⟩
    intro a ha hb
    rw [List.mem_singleton] at hb
    exact hk (hb ▸ ha)

/-- Every entry of `mapSet m k v` carries the key `k` or was in `m`. -/
theorem mem_mapSet {κ β : Type} [DecidableEq κ] :
    ∀ (m : List (κ × β)) (k : κ) (v : β) (p : κ × β),
      p ∈ mapSet m k v → p.1 = k ∨ p ∈ m := by
  intro m
  induction m with
  | nil =>
    intro k v p hp
    simp only [mapSet, List.mem_singleton] at hp
    subst hp
    exact Or.inl rfl
  | cons q rest ih =>
    intro k v p hp
    by_cases h : q.1 = k
    · simp only [mapSet, if_pos h, List.mem_cons] at hp
      rcases hp with rfl | hp
      · exact Or.inl rfl
      · exact Or.inr (List.mem_cons_of_mem _ hp)
    · simp only [mapSet, if_neg h, List.mem_cons] at hp
      rcases hp with rfl | hp
      · exact Or.inr (List.mem_cons_self _ _)
      · rcases ih k v p hp with h1 | h1
        · exact Or.inl h1
        · exact Or.inr (List.mem_cons_of_mem _ h1)

/-- Looking up the key just written returns the written value. -/
theorem mapGet_mapSet_self {κ β : Type} [DecidableEq κ] :
    ∀ (m : List (κ × β)) (k : κ) (v : β), mapGet (mapSet m k v) k = some v := by
  intro m
  induction m with
  | nil => intro k v; simp [mapSet, mapGet]
  | cons p rest ih =>
    intro k v
    by_cases h : p.1 = k
    · simp [mapSet, if_pos h, mapGet]
    · simp only [mapSet, if_neg h, mapGet] at ih ⊢
      rw [List.find?_cons_of_neg _ (by simpa using h)]
      exact ih k v

/-- A key absent from the key sequence has no binding. -/
theorem mapGet_eq_none {κ β : Type} [DecidableEq κ] :
    ∀ (m : List (κ × β)) (k : κ), k ∉ m.map Prod.fst → mapGet m k = none := by
  intro m
  induction m with
  | nil => intro k _; rfl
  | cons p rest ih =>
    intro k hk
    simp only [List.map_cons, List.mem_cons] at hk
    push_neg at hk
    simp only [mapGet]
    rw [List.find?_cons_of_neg _ (by simpa using fun he : p.1 = k => hk.1 he.symm)]
    exact ih k hk.2

/-- Erasing a key from a duplicate-free map removes its binding. -/
theorem mapGet_mapErase_self {κ β : Type} [DecidableEq κ] :
    ∀ (m : List (κ × β)) (k : κ), (m.map Prod.fst).Nodup →
      mapGet (mapErase m k) k = none := by
  intro m
  induction m with
  | nil => intro k _; rfl
  | cons p rest ih =>
    intro k hnd
    simp only [List.map_cons, List.nodup_cons] at hnd
    by_cases h : p.1 = k
    · simp only [mapErase, if_pos h]
      exact mapGet_eq_none rest k (h ▸ hnd.1)
    · simp only [mapErase, if_neg h, mapGet]
      rw [List.find?_cons_of_neg _ (by simpa using h)]
      exact ih k hnd.2

/-! ## Whitespace and trimming lemmas -/

theorem stripWs_append (a b : List Char) :
    stripWs (a ++ b) = stripWs a ++ stripWs b := List.filter_append _ _

theorem stripWs_reverse (l : List Char) :
    stripWs l.reverse = (stripWs l).reverse := List.filter_reverse _ _

theorem stripWs_replicate_nl (n : Nat) : stripWs (List.replicate n '\n') = [] := by
  rw [stripWs, List.filter_eq_nil_iff]
  intro a ha
  rw [List.eq_of_mem_replicate ha]
  decide

/-- Dropping a whitespace prefix does not change the non-whitespace
content. -/
theorem stripWs_dropWhile (l : List Char) :
    stripWs (l.dropWhile jsWs) = stripWs l := by
  conv_rhs => rw [← List.takeWhile_append_dropWhile jsWs l]
  rw [stripWs_append]
  have h : stripWs (l.takeWhile jsWs) = [] := by
    rw [stripWs, List.filter_eq_nil_iff]
    intro a ha
    simp [List.mem_takeWhile_imp ha]
  rw [h, List.nil_append]

/-- Trimming does not change the non-whitespace content. -/
theorem stripWs_jsTrim (l : List Char) : stripWs (jsTrim l) = stripWs l := by
  rw [jsTrim, stripWs_reverse, stripWs_dropWhile, stripWs_reverse,
    stripWs_dropWhile, List.reverse_reverse]

/-- A list trims to nothing exactly when it is all whitespace. -/
theorem jsTrim_eq_nil_iff (l : List Char) : jsTrim l = [] ↔ stripWs l = [] := by
  constructor
  · intro h
    have h2 := stripWs_jsTrim l
    rw [h] at h2
    exact h2.symm
  · intro h
    have hall : ∀ c ∈ l, jsWs c = true := by
      intro c hc
      have h3 := List.filter_eq_nil_iff.mp h c hc
      simpa using h3
    have hdrop : l.dropWhile jsWs = [] := List.dropWhile_eq_nil_iff.mpr hall
    simp [jsTrim, hdrop]

/-- The head of a `dropWhile` result falsifies the predicate. -/
theorem dropWhile_head_not (p : Char → Bool) :
    ∀ (l : List Char) (c : Char), (l.dropWhile p).head? = some c → p c = false := by
  intro l
  induction l with
  | nil => intro c h; simp at h
  | cons a rest ih =>
    intro c h
    by_cases hp : p a
    · rw [List.dropWhile_cons_of_pos hp] at h
      exact ih c h
    · rw [List.dropWhile_cons_of_neg hp] at h
      simp only [List.head?_cons, Option.some.injEq] at h
      subst h
      simpa using hp

/-- A non-empty trimmed list starts with a non-whitespace character. -/
theorem jsTrim_head_not_ws (l : List Char) :
    jsTrim l = [] ∨ ∃ c t, jsTrim l = c :: t ∧ jsWs c = false := by
  rcases h : jsTrim l with _ | ⟨c, t⟩
  · exact Or.inl rfl
  · right
    refine ⟨c, t, rfl, ?_⟩
    rw [jsTrim] at h
    set u := l.dropWhile jsWs with hu
    set x := u.reverse.dropWhile jsWs with hx
    have hlast : x.getLast? = some c := by
      rw [← List.head?_reverse, h, List.head?_cons]
    have hsuffix := List.dropWhile_suffix (l := u.reverse) jsWs
    rcases hsuffix with ⟨pre, hpre⟩
    have hlast2 : u.reverse.getLast? = some c := by
      rw [← hpre, List.getLast?_append, ← hx, hlast]
      rfl
    have hhead : u.head? = some c := by
      rw [← List.getLast?_reverse]
      exact hlast2
    exact dropWhile_head_not jsWs l c (hu ▸ hhead)

/-! ## Claim C2: the consolidated word count is the sum of chunk word counts -/

theorem foldl_add_wordCount (rs : List ChunkResult) (n : Nat) :
    rs.foldl (fun sum c => sum + c.wordCount) n =
      n + (rs.map ChunkResult.wordCount).sum := by
  induction rs generalizing n with
  | nil => simp
  | cons r rest ih => simp [ih, Nat.add_assoc]

/-- c2: for every chunked analysis, the consolidated result's word count
equals the arithmetic sum of the word counts of all constituent chunk
results. -/
theorem c2_wordCount_is_sum_of_chunks (chunkResults : List ChunkResult)
    (originalText : List Char) :
    (consolidateChunkResults chunkResults originalText).wordCount =
      (chunkResults.map ChunkResult.wordCount).sum := by
  simp only [consolidateChunkResults]
  simpa using foldl_add_wordCount chunkResults 0

/-! ## Claim C8: at most five top words, duplicate-free legal terms -/

/-- Stable insertion produces a permutation of pushing in front. -/
theorem stableInsertBy_perm {γ : Type} (gt : γ → γ → Bool) (x : γ) :
    ∀ l : List γ, (stableInsertBy gt x l).Perm (x :: l) := by
  intro l
  induction l with
  | nil => simp [stableInsertBy]
  | cons y rest ih =>
    by_cases h : gt y x
    · rw [stableInsertBy, if_pos h]
      exact (ih.cons y).trans (List.Perm.swap x y rest)
    · rw [stableInsertBy, if_neg h]

/-- Stable sorting permutes the input. -/
theorem stableSortBy_perm {γ : Type} (gt : γ → γ → Bool) :
    ∀ l : List γ, (stableSortBy gt l).Perm l := by
  intro l
  induction l with
  | nil => simp [stableSortBy]
  | cons x rest ih =>
    rw [stableSortBy]
    exact (stableInsertBy_perm gt x _).trans (ih.cons x)

/-- Membership is invariant under stable sorting. -/
theorem mem_stableSortBy {γ : Type} {gt : γ → γ → Bool} {a : γ} {l : List γ} :
    a ∈ stableSortBy gt l ↔ a ∈ l :=
  (stableSortBy_perm gt l).mem_iff

/-- Stable sorting preserves distinctness of keys. -/
theorem sortByCountDesc_nodup_fst {κ : Type} (l : List (κ × Nat))
    (h : (l.map Prod.fst).Nodup) : ((sortByCountDesc l).map Prod.fst).Nodup := by
  unfold sortByCountDesc
  exact (((stableSortBy_perm _ l).map Prod.fst).symm).nodup h

/-- The count-merging folds of `consolidateChunkResults` keep keys
duplicate-free. -/
theorem merge_counts_nodup {κ : Type} [DecidableEq κ]
    (entries : List (List (κ × Nat))) (m : List (κ × Nat))
    (h : (m.map Prod.fst).Nodup) :
    ((entries.foldl
        (fun m2 es => es.foldl
          (fun m3 e => mapSet m3 e.1 ((mapGet m3 e.1).getD 0 + e.2)) m2) m).map
      Prod.fst).Nodup := by
  refine @foldl_inv _ _ (fun m4 => (m4.map Prod.fst).Nodup) _ entries m
    (fun g' es _ hg => ?_) h
  exact @foldl_inv _ _ (fun m4 => (m4.map Prod.fst).Nodup) _ es g'
    (fun g2 e _ hg2 => mapSet_nodup _ _ _ hg2) hg

/-- c8: for every consolidated result, the top-words list has length at
most five and the legal-terms list contains no term more than once. -/
theorem c8_top5_and_terms_nodup (chunkResults : List ChunkResult)
    (originalText : List Char) :
    (consolidateChunkResults chunkResults originalText).topWords.length ≤ 5 ∧
    ((consolidateChunkResults chunkResults originalText).legalTerms.map
      Prod.fst).Nodup := by
  simp only [consolidateChunkResults]
  constructor
  · rw [List.length_take]
    exact min_le_left _ _
  · apply sortByCountDesc_nodup_fst
    have h := merge_counts_nodup (κ := List Char)
      (chunkResults.map ChunkResult.legalTerms) [] (by simp)
    rw [List.foldl_map] at h
    exact h

/-! ## Claim C10: multi-word vocabulary terms are never matched -/

/-- Tokens produced by whitespace splitting contain no whitespace. -/
theorem splitWsGo_no_ws :
    ∀ (l acc : List Char) (sep : Bool), (∀ c ∈ acc, jsWs c = false) →
      ∀ w ∈ splitWsGo acc sep l, ∀ c ∈ w, jsWs c = false := by
  intro l
  induction l with
  | nil =>
    intro acc sep hacc w hw c hc
    by_cases hsep : sep
    · simp only [splitWsGo, if_pos hsep, List.mem_cons, List.mem_singleton,
        List.not_mem_nil, or_false] at hw
      rcases hw with rfl | rfl
      · exact hacc c (List.mem_reverse.mp hc)
      · simp at hc
    · simp only [splitWsGo, if_neg hsep, List.mem_singleton] at hw
      subst hw
      exact hacc c (List.mem_reverse.mp hc)
  | cons a rest ih =>
    intro acc sep hacc w hw c hc
    by_cases h1 : jsWs a
    · rw [splitWsGo, if_pos h1] at hw
      exact ih acc true hacc w hw c hc
    · rw [splitWsGo, if_neg h1] at hw
      by_cases h2 : sep
      · rw [if_pos h2] at hw
        rcases List.mem_cons.mp hw with rfl | hw2
        · exact hacc c (List.mem_reverse.mp hc)
        · refine ih [a] false ?_ w hw2 c hc
          intro d hd
          rw [List.mem_singleton] at hd
          subst hd
          simpa using h1
      · rw [if_neg h2] at hw
        refine ih (a :: acc) false ?_ w hw c hc
        intro d hd
        rcases List.mem_cons.mp hd with rfl | hd2
        · simpa using h1
        · exact hacc d hd2

/-- Every token of `extractWords` is whitespace-free. -/
theorem extractWords_no_ws (text : List Char) :
    ∀ w ∈ extractWords text, ∀ c ∈ w, jsWs c = false := by
  intro w hw
  simp only [extractWords] at hw
  have hw2 := (List.mem_filter.mp hw).1
  exact splitWsGo_no_ws _ [] false (by simp) w hw2

/-- Every key of `extractLegalTerms` is one of the given tokens. -/
theorem extractLegalTerms_fst_mem (words : List (List Char)) :
    ∀ p ∈ extractLegalTerms words, p.1 ∈ words := by
  intro p hp
  simp only [extractLegalTerms, sortByCountDesc] at hp
  rw [mem_stableSortBy] at hp
  have hinv : ∀ q ∈ (words.foldl
      (fun m w => if legalTermsVocab.contains w then
        mapSet m w ((mapGet m w).getD 0 + 1) else m) ([] : List (List Char × Nat))),
      q.1 ∈ words := by
    refine @foldl_inv (List (List Char × Nat)) (List Char)
      (fun m => ∀ q ∈ m, q.1 ∈ words) _ words []
      (fun g' x hx hg => ?_) (fun q hq => absurd hq (List.not_mem_nil q))
    intro q hq
    by_cases hv : legalTermsVocab.contains x
    · rw [if_pos hv] at hq
      rcases mem_mapSet g' x _ q hq with h1 | h1
      · exact h1 ▸ hx
      · exact hg q h1
    · rw [if_neg hv] at hq
      exact hg q hq
  exact hinv p hp

/-- Keys of consolidated legal terms are drawn from chunk legal terms. -/
theorem consolidated_legalTerms_no_ws (chunkResults : List ChunkResult)
    (originalText : List Char)
    (h : ∀ r ∈ chunkResults, ∀ q ∈ r.legalTerms, ' ' ∉ q.1) :
    ∀ e ∈ (consolidateChunkResults chunkResults originalText).legalTerms,
      ' ' ∉ e.1 := by
  intro e he
  simp only [consolidateChunkResults, sortByCountDesc] at he
  rw [mem_stableSortBy] at he
  have hinv : ∀ q ∈ (chunkResults.foldl
      (fun m c => c.legalTerms.foldl
        (fun m2 tc => mapSet m2 tc.1 ((mapGet m2 tc.1).getD 0 + tc.2)) m)
      ([] : List (List Char × Nat))), ' ' ∉ q.1 := by
    refine @foldl_inv (List (List Char × Nat)) ChunkResult
      (fun m => ∀ q ∈ m, ' ' ∉ q.1) _ chunkResults []
      (fun g' r hr hg => ?_) (fun q hq => absurd hq (List.not_mem_nil q))
    refine @foldl_inv (List (List Char × Nat)) (List Char × Nat)
      (fun m => ∀ q ∈ m, ' ' ∉ q.1) _ r.legalTerms g'
      (fun g2 tc htc hg2 => ?_) hg
    intro q hq
    rcases mem_mapSet g2 tc.1 _ q hq with h1 | h1
    · exact h1 ▸ h r hr tc htc
    · exact hg2 q h1
  exact hinv e he

/-- c10: tokenization splits on whitespace and term matching compares
single tokens against the vocabulary, so a multi-word vocabulary entry
(one containing a space, such as the four listed ones) can never appear
in a chunk-level or consolidated legal-terms list. -/
theorem c10_multiword_vocab_never_matched :
    (∀ chunk : List Char, ∀ e ∈ extractLegalTerms (extractWords chunk),
      ' ' ∉ e.1 ∧ ∀ term : List Char, ' ' ∈ term → e.1 ≠ term) ∧
    (∀ (chunkResults : List ChunkResult) (originalText : List Char),
      (∀ r ∈ chunkResults, ∀ q ∈ r.legalTerms, ' ' ∉ q.1) →
      ∀ e ∈ (consolidateChunkResults chunkResults originalText).legalTerms,
        ' ' ∉ e.1) ∧
    ("coisa julgada".data ∈ legalTermsVocab ∧ ' ' ∈ "coisa julgada".data) ∧
    ("trânsito em julgado".data ∈ legalTermsVocab ∧ ' ' ∈ "trânsito em julgado".data) ∧
    ("lucro cessante".data ∈ legalTermsVocab ∧ ' ' ∈ "lucro cessante".data) ∧
    ("dano emergente".data ∈ legalTermsVocab ∧ ' ' ∈ "dano emergente".data) := by
  refine ⟨?_, consolidated_legalTerms_no_ws, by decide, by decide, by decide, by decide⟩
  intro chunk e he
  have hmem := extractLegalTerms_fst_mem (extractWords chunk) e he
  have hnosp : ' ' ∉ e.1 := by
    intro hsp
    have := extractWords_no_ws chunk e.1 hmem ' ' hsp
    simp [jsWs] at this
  exact ⟨hnosp, fun term hterm heq => hnosp (heq ▸ hterm)⟩

/-- c10 witness: the single-token term `contrato` extracted from a
concrete chunk contains no space and differs from the multi-word
vocabulary entry `coisa julgada`. -/
theorem c10_witness :
    ¬ (' ' ∈ ("contrato".data : List Char)) ∧
    ("contrato".data : List Char) ≠ "coisa julgada".data := by
  have h := c10_multiword_vocab_never_matched
  have h1 := h.1 "contrato contrato".data ("contrato".data, 2) (by decide)
  exact ⟨h1.1, h1.2 "coisa julgada".data (by decide)⟩

/-! ## Claim C1: chunk coverage of the source text -/

theorem stripWs_nil : stripWs [] = [] := rfl

theorem stripWs_cons (c : Char) (l : List Char) :
    stripWs (c :: l) = if jsWs c then stripWs l else c :: stripWs l := by
  rw [stripWs, List.filter_cons]
  by_cases h : jsWs c <;> simp [h, stripWs]

/-- Splitting on a zero-width lookahead keeps every character. -/
theorem splitLookaheadGo_flatten (f : List Char → Bool) :
    ∀ (l acc : List Char),
      (splitLookaheadGo f acc l).flatten = acc.reverse ++ l := by
  intro l
  induction l with
  | nil => intro acc; simp [splitLookaheadGo]
  | cons c rest ih =>
    intro acc
    simp only [splitLookaheadGo]
    split
    · rw [List.flatten_cons, ih [c]]
      simp
    · rw [ih (c :: acc)]
      simp

/-- Paragraph splitting drops only line feeds: the non-whitespace
content of the segments is that of the input. -/
theorem splitParasGo_strip_flatten :
    ∀ (l acc : List Char) (nl : Nat),
      stripWs (splitParasGo acc nl l).flatten =
        stripWs acc.reverse ++ stripWs l := by
  intro l
  induction l with
  | nil =>
    intro acc nl
    by_cases h : nl ≥ 2
    · simp [splitParasGo, h, stripWs_nil]
    · simp [splitParasGo, h, stripWs_append, stripWs_replicate_nl, stripWs_nil]
  | cons c rest ih =>
    intro acc nl
    have hnl : jsWs '\n' = true := rfl
    by_cases h1 : c = '\n'
    · subst h1
      simp [splitParasGo, ih, stripWs_cons, hnl]
    · simp only [splitParasGo, if_neg h1]
      by_cases h2 : nl ≥ 2
      · rw [if_pos h2, List.flatten_cons, stripWs_append, ih]
        by_cases h3 : jsWs c <;>
          simp [stripWs_cons, h3, stripWs_nil]
      · rw [if_neg h2, ih]
        by_cases h3 : jsWs c <;>
          simp [stripWs_cons, h3, stripWs_nil, stripWs_append, stripWs_reverse,
            List.reverse_cons, List.reverse_append, List.reverse_replicate,
            stripWs_replicate_nl, List.append_assoc]

/-- Discarding all-whitespace segments keeps the non-whitespace content
of the concatenation. -/
theorem stripWs_flatten_filter_blank (segs : List (List Char)) :
    stripWs ((segs.filter (fun s => !(jsTrim s).isEmpty)).flatten) =
      stripWs segs.flatten := by
  induction segs with
  | nil => rfl
  | cons a rest ih =>
    by_cases h : (jsTrim a).isEmpty
    · have ha : stripWs a = [] := (jsTrim_eq_nil_iff a).mp (by simpa using h)
      simp [List.filter_cons, h, stripWs_append, ih, ha]
    · simp [List.filter_cons, h, stripWs_append, ih]

/-- The accumulate/flush loop keeps the non-whitespace content when the
separator is all whitespace. -/
theorem accumGo_strip_flatten (cfg : ChunkCfg) (sep : List Char)
    (hsep : stripWs sep = []) :
    ∀ (segs : List (List Char)) (cur : List Char),
      stripWs (accumGo cfg sep cur segs).flatten =
        stripWs cur ++ stripWs segs.flatten := by
  intro segs
  induction segs with
  | nil =>
    intro cur
    by_cases h : jsTrim cur = []
    · simp only [accumGo, if_pos h, List.flatten_nil, List.flatten_cons]
      rw [stripWs_nil]
      have := (jsTrim_eq_nil_iff cur).mp h
      simp [this]
    · simp [accumGo, h, stripWs_jsTrim, stripWs_nil]
  | cons a rest ih =>
    intro cur
    simp only [accumGo]
    split
    · rw [List.flatten_cons, stripWs_append, stripWs_jsTrim, ih a,
        List.flatten_cons, stripWs_append]
    · rw [ih, List.flatten_cons]
      simp [stripWs_append, hsep, List.append_assoc]

/-- Every chunk produced by the accumulate/flush loop is a trimmed
string. -/
theorem accumGo_mem_trim (cfg : ChunkCfg) (sep : List Char) :
    ∀ (segs : List (List Char)) (cur ch : List Char),
      ch ∈ accumGo cfg sep cur segs → ∃ s, ch = jsTrim s := by
  intro segs
  induction segs with
  | nil =>
    intro cur ch h
    by_cases hc : jsTrim cur = []
    · simp [accumGo, hc] at h
    · simp only [accumGo, if_neg hc, List.mem_singleton] at h
      exact ⟨cur, h⟩
  | cons a rest ih =>
    intro cur ch h
    simp only [accumGo] at h
    split at h
    · rcases List.mem_cons.mp h with rfl | h2
      · exact ⟨cur, rfl⟩
      · exact ih a ch h2
    · exact ih _ ch h

/-- Chunks produced from non-blank segments are non-empty. -/
theorem accumGo_ne_nil (cfg : ChunkCfg) (sep : List Char) :
    ∀ (segs : List (List Char)) (cur : List Char),
      (∀ s ∈ segs, stripWs s ≠ []) → (cur = [] ∨ stripWs cur ≠ []) →
      ∀ ch ∈ accumGo cfg sep cur segs, ch ≠ [] := by
  intro segs
  induction segs with
  | nil =>
    intro cur _ hcur ch h
    by_cases hc : jsTrim cur = []
    · simp [accumGo, hc] at h
    · simp only [accumGo, if_neg hc, List.mem_singleton] at h
      subst h
      exact hc
  | cons a rest ih =>
    intro cur hsegs hcur ch h
    simp only [accumGo] at h
    split at h
    case isTrue hcond =>
      rw [Bool.and_eq_true, decide_eq_true_eq, decide_eq_true_eq] at hcond
      rcases List.mem_cons.mp h with rfl | h2
      · have hcur2 : stripWs cur ≠ [] := by
          rcases hcur with rfl | h3
          · exact absurd hcond.2 (by simp)
          · exact h3
        intro hnil
        exact hcur2 ((jsTrim_eq_nil_iff cur).mp hnil)
      · exact ih a (fun s hs => hsegs s (List.mem_cons_of_mem _ hs))
          (Or.inr (hsegs a (List.mem_cons_self _ _))) ch h2
    case isFalse =>
      refine ih _ (fun s hs => hsegs s (List.mem_cons_of_mem _ hs)) ?_ ch h
      right
      intro hemp
      simp only [stripWs_append, List.append_eq_nil] at hemp
      exact hsegs a (List.mem_cons_self _ _) hemp.2

/-- Every chunk of `createChunks` is a trimmed string. -/
theorem createChunks_mem_trim (cfg : ChunkCfg) (text : List Char) :
    ∀ ch ∈ createChunks cfg text, ∃ s, ch = jsTrim s := by
  intro ch h
  simp only [createChunks] at h
  split at h
  · exact accumGo_mem_trim cfg ['\n'] _ [] ch h
  · exact accumGo_mem_trim cfg ['\n', '\n'] _ [] ch h

/-- A non-empty concatenation starts inside one of the chunks. -/
theorem flatten_eq_cons_mem :
    ∀ (l : List (List Char)) (x : Char) (xs : List Char),
      l.flatten = x :: xs → ∃ c ∈ l, ∃ t, c = x :: t := by
  intro l
  induction l with
  | nil => intro x xs h; simp at h
  | cons a rest ih =>
    intro x xs h
    rcases a with _ | ⟨y, ys⟩
    · rw [List.flatten_cons, List.nil_append] at h
      rcases ih x xs h with ⟨c, hc, t, ht⟩
      exact ⟨c, List.mem_cons_of_mem _ hc, t, ht⟩
    · rw [List.flatten_cons, List.cons_append] at h
      injection h with h1 _
      subst h1
      exact ⟨y :: ys, List.mem_cons_self _ _, ys, rfl⟩

/-- c1 (amended): every chunk of `createChunks` is non-empty, and the
in-order concatenation of the chunks preserves exactly the
non-whitespace characters of the source text; literal equality fails
because separators are normalized and chunk ends are trimmed. -/
theorem c1_chunks_nonempty_cover (cfg : ChunkCfg) (text : List Char) :
    (∀ chunk ∈ createChunks cfg text, chunk ≠ []) ∧
    stripWs (createChunks cfg text).flatten = stripWs text := by
  constructor
  · intro ch hch
    simp only [createChunks] at hch
    split at hch
    all_goals {
      refine accumGo_ne_nil cfg _ _ [] ?_ (Or.inl rfl) ch hch
      intro s hs
      have h2 := (List.mem_filter.mp hs).2
      intro hnil
      rw [← jsTrim_eq_nil_iff] at hnil
      simp [hnil] at h2
    }
  · simp only [createChunks]
    split
    · rw [accumGo_strip_flatten cfg ['\n'] rfl, stripWs_flatten_filter_blank]
      have h3 := splitLookaheadGo_flatten matchArticleLookahead text []
      simp only [List.reverse_nil, List.nil_append] at h3
      rw [splitLookahead, h3]
      simp [stripWs_nil]
    · rw [accumGo_strip_flatten cfg ['\n', '\n'] rfl,
        stripWs_flatten_filter_blank, splitParagraphs,
        splitParasGo_strip_flatten]
      simp [stripWs_nil]

/-- c1 counterexample: a text routed through chunking (6001 characters,
above twice the configured chunk size of 3000) whose chunk
concatenation is not the source text — the leading line feed is
trimmed away. -/
theorem c1_counterexample :
    ('\n' :: List.replicate 6000 'a').length > 2 * textProcessingCfg.chunkSize ∧
    (createChunks textProcessingCfg ('\n' :: List.replicate 6000 'a')).flatten ≠
      '\n' :: List.replicate 6000 'a' := by
  constructor
  · rw [List.length_cons, List.length_replicate]
    decide
  · intro h
    rcases flatten_eq_cons_mem _ _ _ h with ⟨c, hc, t, ht⟩
    rcases createChunks_mem_trim _ _ c hc with ⟨s, rfl⟩
    rcases jsTrim_head_not_ws s with h0 | ⟨c2, t2, he, hws⟩
    · rw [h0] at ht
      exact absurd ht (by simp)
    · rw [he] at ht
      injection ht with h1 _
      rw [h1] at hws
      exact absurd hws (by decide)

/-- c1 witness: the coverage statement at a concrete two-paragraph
text. -/
theorem c1_witness :
    (∀ chunk ∈ createChunks ⟨5, 1⟩ "aaa\n\nbbb".data, chunk ≠ []) ∧
    stripWs (createChunks ⟨5, 1⟩ "aaa\n\nbbb".data).flatten =
      stripWs "aaa\n\nbbb".data :=
  c1_chunks_nonempty_cover ⟨5, 1⟩ "aaa\n\nbbb".data

/-! ## Claim C3: failure handling of the in-memory queue -/

/-- The deleted id is gone from the set. -/
theorem setDelete_not_mem (x : String) (s : List String) :
    x ∉ setDelete x s := by
  intro h
  have h2 := (List.mem_filter.mp h).2
  simp at h2

/-- Bumping the first job with the id keeps it in the queue. -/
theorem bumpFirst_mem (analysisId : String) :
    ∀ (q : List AnalysisJob) (j : AnalysisJob),
      q.find? (fun k => decide (k.analysisId = analysisId)) = some j →
      { j with attempts := j.attempts + 1 } ∈ bumpFirst analysisId q := by
  intro q
  induction q with
  | nil => intro j h; simp at h
  | cons k rest ih =>
    intro j h
    by_cases hk : k.analysisId = analysisId
    · rw [List.find?_cons_of_pos _ (by simpa using hk)] at h
      injection h with h1
      subst h1
      rw [bumpFirst, if_pos hk]
      exact List.mem_cons_self _ _
    · rw [List.find?_cons_of_neg _ (by simpa using hk)] at h
      rw [bumpFirst, if_neg hk]
      exact List.mem_cons_of_mem _ (ih j h)

/-- c3 (amended): when a job fails below the retry budget, its attempt
counter is incremented and a retry notification is scheduled after
`2 ^ attempts * 1000` time units, but the job is removed from the
processing set immediately and stays in the queue, so it is dispatchable
again at once (the backoff delays only the notification); when the
incremented attempt count reaches the budget, the job is removed from
the queue and the processing set and reported permanently failed. -/
theorem c3_failJob_behavior (maxRetries : Nat) (s : QueueState)
    (j : AnalysisJob)
    (hfind : s.memoryQueue.find?
      (fun k => decide (k.analysisId = j.analysisId)) = some j) :
    (j.attempts + 1 < maxRetries →
      (failJob maxRetries s j.analysisId).retryDelay =
        some (2 ^ (j.attempts + 1) * 1000) ∧
      j.analysisId ∉ (failJob maxRetries s j.analysisId).state.processing ∧
      { j with attempts := j.attempts + 1 } ∈
        (failJob maxRetries s j.analysisId).state.memoryQueue ∧
      (failJob maxRetries s j.analysisId).failedJob = none) ∧
    (j.attempts + 1 ≥ maxRetries →
      (failJob maxRetries s j.analysisId).failedJob =
        some { j with attempts := j.attempts + 1 } ∧
      (∀ k ∈ (failJob maxRetries s j.analysisId).state.memoryQueue,
        k.analysisId ≠ j.analysisId) ∧
      j.analysisId ∉ (failJob maxRetries s j.analysisId).state.processing ∧
      (failJob maxRetries s j.analysisId).retryDelay = none) := by
  constructor
  · intro hlt
    simp only [failJob, hfind]
    rw [if_neg (by omega)]
    refine ⟨rfl, setDelete_not_mem _ _, ?_, rfl⟩
    exact bumpFirst_mem _ _ _ hfind
  · intro hge
    simp only [failJob, hfind]
    rw [if_pos (by omega)]
    refine ⟨rfl, ?_, setDelete_not_mem _ _, rfl⟩
    intro k hk
    have h2 := (List.mem_filter.mp hk).2
    simpa using h2

/-- c3 witness: a concrete claimed job with zero prior attempts and the
default retry budget of three: the retry branch schedules a 2000-unit
notification while the job is already dispatchable again. -/
theorem c3_witness :
    (failJob 3 sampleClaimed "job-1").retryDelay = some 2000 ∧
    "job-1" ∉ (failJob 3 sampleClaimed "job-1").state.processing ∧
    (⟨"job-1", [], 0, 1⟩ : AnalysisJob) ∈
      (failJob 3 sampleClaimed "job-1").state.memoryQueue ∧
    (failJob 3 sampleClaimed "job-1").failedJob = none :=
  (c3_failJob_behavior 3 sampleClaimed ⟨"job-1", [], 0, 0⟩ (by decide)).1
    (by decide)

/-- c3 counterexample: the claim says a failed job below the budget
returns to the dispatchable state only after the backoff delay; in the
code the id leaves the processing set immediately, so `getNextJob`
hands the job out again in the immediate post-state, while the 2000-unit
retry timer is still pending. -/
theorem c3_counterexample :
    (failJob 3 sampleClaimed "job-1").retryDelay = some 2000 ∧
    ((getNextJob (failJob 3 sampleClaimed "job-1").state).1.map
      AnalysisJob.analysisId = some "job-1") := by
  constructor
  · decide
  · decide

/-! ## Claim C4: no job is dispatched to two worker slots -/

/-- The added id is in the set. -/
theorem setAdd_mem (x : String) (s : List String) : x ∈ setAdd x s := by
  rw [setAdd]
  by_cases h : x ∈ s
  · rwa [if_pos h]
  · rw [if_neg h]
    simp

/-- c4: a job whose id is in the processing set is never returned by
`getNextJob`; the returned job's id is claimed in the post-state, so an
immediately following `getNextJob` cannot return the same id — no job
is dispatched to two worker slots at once. -/
theorem c4_no_double_dispatch (s : QueueState) (j : AnalysisJob)
    (h : (getNextJob s).1 = some j) :
    j.analysisId ∉ s.processing ∧
    j.analysisId ∈ (getNextJob s).2.processing ∧
    ∀ j2 : AnalysisJob, (getNextJob (getNextJob s).2).1 = some j2 →
      j2.analysisId ≠ j.analysisId := by
  rcases hf : s.memoryQueue.find? (fun k => decide (k.analysisId ∉ s.processing))
    with _ | k
  · rw [getNextJob] at h
    rw [hf] at h
    simp at h
  · have hj : k = j := by
      rw [getNextJob] at h
      rw [hf] at h
      simpa using h
    subst hj
    have h1 : k.analysisId ∉ s.processing := by
      have := List.find?_some hf
      simpa using this
    have hstate : (getNextJob s).2 =
        { s with processing := setAdd k.analysisId s.processing } := by
      rw [getNextJob, hf]
    refine ⟨h1, ?_, ?_⟩
    · rw [hstate]
      exact setAdd_mem _ _
    · intro j2 h2
      rcases hf2 : (getNextJob s).2.memoryQueue.find?
        (fun k2 => decide (k2.analysisId ∉ (getNextJob s).2.processing))
        with _ | k2
      · rw [getNextJob] at h2
        rw [hf2] at h2
        simp at h2
      · have hj2 : k2 = j2 := by
          rw [getNextJob] at h2
          rw [hf2] at h2
          simpa using h2
        subst hj2
        have h3 : k2.analysisId ∉ (getNextJob s).2.processing := by
          have := List.find?_some hf2
          simpa using this
        intro heq
        apply h3
        rw [hstate, heq]
        exact setAdd_mem _ _

/-- c4 witness: with one unclaimed concrete job, `getNextJob` returns
it, claims its id, and a repeated call cannot return the same id. -/
theorem c4_witness :
    ("job-1" : String) ∉ sampleUnclaimed.processing ∧
    ("job-1" : String) ∈ (getNextJob sampleUnclaimed).2.processing ∧
    ∀ j2 : AnalysisJob,
      (getNextJob (getNextJob sampleUnclaimed).2).1 = some j2 →
        j2.analysisId ≠ "job-1" :=
  c4_no_double_dispatch sampleUnclaimed ⟨"job-1", [], 0, 0⟩ (by decide)

/-! ## Claim C5: cache TTL behavior -/

/-- `mapSet` preserves distinctness of keys (used for the cache map). -/
theorem cacheSet_nodup {α : Type} (cfgTtl : Nat) (s : CacheState α) (now : Nat)
    (key : String) (value : α) (ttl : Option Nat)
    (h : (s.cache.map Prod.fst).Nodup) :
    (((cacheSet cfgTtl s now key value ttl).cache.map Prod.fst)).Nodup :=
  mapSet_nodup _ _ _ h

/-- c5 (amended): after `set(key, value, ttl)` the entry expires at
`now + (ttl || default)` — a zero `ttl` argument falls back to the
configured default because of the JavaScript `||` — and, over a
duplicate-free cache map, a get at or before that expiry returns exactly
the stored value while a get after it misses and removes the entry. -/
theorem c5_cache_ttl {α : Type} (cfgTtl : Nat) (s : CacheState α) (now t : Nat)
    (key : String) (value : α) (ttl : Option Nat)
    (hnodup : (s.cache.map Prod.fst).Nodup) :
    (t ≤ now + jsOrDefault ttl cfgTtl →
      (cacheGet (cacheSet cfgTtl s now key value ttl) t key).1 = some value) ∧
    (t > now + jsOrDefault ttl cfgTtl →
      (cacheGet (cacheSet cfgTtl s now key value ttl) t key).1 = none ∧
      mapGet (cacheGet (cacheSet cfgTtl s now key value ttl) t key).2.cache
        key = none) := by
  have hget : mapGet (cacheSet cfgTtl s now key value ttl).cache key =
      some { data := value, expiresAt := now + jsOrDefault ttl cfgTtl } :=
    mapGet_mapSet_self _ _ _
  constructor
  · intro hle
    simp only [cacheGet, hget]
    rw [if_neg (by omega)]
  · intro hgt
    simp only [cacheGet, hget]
    rw [if_pos (by omega)]
    refine ⟨rfl, ?_⟩
    exact mapGet_mapErase_self _ _
      (cacheSet_nodup cfgTtl s now key value ttl hnodup)

/-- c5 witness: a concrete set/get pair on an empty cache, hitting
strictly before expiry and missing (with removal) strictly after. -/
theorem c5_witness :
    ((5 : Nat) ≤ 10 + jsOrDefault (some 7) 9 →
      (cacheGet (cacheSet 9 emptyNatCache 10 "key" 42 (some 7)) 5 "key").1 =
        some 42) ∧
    ((5 : Nat) > 10 + jsOrDefault (some 7) 9 →
      (cacheGet (cacheSet 9 emptyNatCache 10 "key" 42 (some 7)) 5 "key").1 =
        none ∧
      mapGet (cacheGet (cacheSet 9 emptyNatCache 10 "key" 42
        (some 7)) 5 "key").2.cache "key" = none) :=
  c5_cache_ttl 9 emptyNatCache 10 5 "key" 42 (some 7) (by decide)

/-- c5 counterexample: the claim reads the expiry as `now + ttl` for
every `ttl`; with `ttl = 0` the code stores `now + default` instead, so
a get after the claimed expiry time `now + 0` still returns the value. -/
theorem c5_counterexample :
    (cacheGet (cacheSet 7200000 emptyNatCache 100 "key" 42 (some 0)) 101
      "key").1 = some 42 ∧
    (101 : Nat) > 100 + 0 := by
  constructor
  · decide
  · decide

/-! ## Claim C6: the content fingerprint -/

theorem length_bytesToHex (bs : List Nat) :
    (bytesToHex bs).length = 2 * bs.length := by
  induction bs with
  | nil => rfl
  | cons b rest ih =>
    simp only [bytesToHex, List.map_cons, List.flatten_cons, List.length_append,
      List.length_cons] at ih ⊢
    rw [show (byteHex b).length = 2 from rfl]
    omega

theorem length_hashBytes (st : Hash8) : (hashBytes st).length = 32 := rfl

theorem length_sha256Bytes (msg : List Nat) : (sha256Bytes msg).length = 32 :=
  length_hashBytes _

/-- Digest words are serialized bytewise. -/
theorem mem_wordBytes_lt (w : Nat) : ∀ b ∈ wordBytes w, b < 256 := by
  intro b hb
  simp only [wordBytes, List.mem_cons, List.not_mem_nil, or_false] at hb
  rcases hb with rfl | rfl | rfl | rfl <;> exact Nat.mod_lt _ (by decide)

theorem mem_hashBytes_lt (st : Hash8) : ∀ b ∈ hashBytes st, b < 256 := by
  intro b hb
  simp only [hashBytes, List.mem_append] at hb
  rcases hb with ((((((h | h) | h) | h) | h) | h) | h) | h <;>
    exact mem_wordBytes_lt _ b h

theorem mem_sha256Bytes_lt (msg : List Nat) : ∀ b ∈ sha256Bytes msg, b < 256 :=
  mem_hashBytes_lt _

theorem hexDigitChar_mem : ∀ n, n < 16 → hexDigitChar n ∈ hexAlphabet := by
  decide

theorem byteHex_mem (b : Nat) (hb : b < 256) :
    ∀ c ∈ byteHex b, c ∈ hexAlphabet := by
  intro c hc
  simp only [byteHex, List.mem_cons, List.not_mem_nil, or_false] at hc
  rcases hc with rfl | rfl
  · exact hexDigitChar_mem _ (by omega)
  · exact hexDigitChar_mem _ (by omega)

theorem bytesToHex_mem (bs : List Nat) (h : ∀ b ∈ bs, b < 256) :
    ∀ c ∈ bytesToHex bs, c ∈ hexAlphabet := by
  intro c hc
  simp only [bytesToHex] at hc
  rw [List.mem_flatten] at hc
  rcases hc with ⟨l, hl, hcl⟩
  rw [List.mem_map] at hl
  rcases hl with ⟨b, hb, rfl⟩
  exact byteHex_mem b (h b hb) c hcl

/-- c6: `generateKey` is a pure function of the UTF-8 byte sequence of
the text — equal byte sequences give the identical key — and every key
is a 64-character string over the lowercase hexadecimal alphabet. -/
theorem c6_generateKey_digest (s t : String)
    (hbytes : utf8Encode s = utf8Encode t) :
    generateKey s = generateKey t ∧
    (generateKey s).length = 64 ∧
    ∀ c ∈ generateKey s, c ∈ hexAlphabet := by
  refine ⟨?_, ?_, ?_⟩
  · rw [generateKey, generateKey, hbytes]
  · rw [generateKey, length_bytesToHex, length_sha256Bytes]
  · rw [generateKey]
    exact bytesToHex_mem _ (mem_sha256Bytes_lt _)

/-- c6 witness: two calls on the same text yield the identical
64-character lowercase hexadecimal key. -/
theorem c6_witness :
    generateKey "contrato" = generateKey "contrato" ∧
    (generateKey "contrato").length = 64 ∧
    ∀ c ∈ generateKey "contrato", c ∈ hexAlphabet :=
  c6_generateKey_digest "contrato" "contrato" rfl

/-! ## Claim C7: a throwing chunk degrades, the job completes -/

/-- c7: if the analysis of any chunk throws, that chunk's entry in the
chunk-result list is the degraded result (word count zero, empty word
and term lists, the error marker), and the overall analysis still
returns the consolidated result rather than propagating the error. -/
theorem c7_chunk_error_degraded (sent : Nat → Except String String)
    (cfg : ChunkCfg) (text : List Char) (index : Nat) (chunk : List Char)
    (e : String)
    (hchunk : (createChunks cfg text)[index]? = some chunk)
    (herr : analyzeChunkE sent chunk index = Except.error e) :
    (chunkResultsOf sent cfg text)[index]? = some (degradedChunk index) ∧
    (degradedChunk index).wordCount = 0 ∧
    (degradedChunk index).topWords = [] ∧
    (degradedChunk index).legalTerms = [] ∧
    (degradedChunk index).error = some "Falha ao analisar chunk" ∧
    analyzeWithChunking sent cfg text =
      Except.ok (analysisResultOf sent cfg text) := by
  refine ⟨?_, rfl, rfl, rfl, rfl, rfl⟩
  rw [chunkResultsOf, List.getElem?_map, List.getElem?_enum, hchunk]
  simp [processOneChunk, herr]

/-- c7 witness: a concrete two-chunk text whose first chunk analysis
throws; the first chunk result is the degraded one and the analysis
completes. -/
theorem c7_witness :
    (chunkResultsOf failingSent ⟨5, 1⟩ "aaa\n\nbbb".data)[0]? =
      some (degradedChunk 0) ∧
    (degradedChunk 0).wordCount = 0 ∧
    (degradedChunk 0).topWords = [] ∧
    (degradedChunk 0).legalTerms = [] ∧
    (degradedChunk 0).error = some "Falha ao analisar chunk" ∧
    analyzeWithChunking failingSent ⟨5, 1⟩ "aaa\n\nbbb".data =
      Except.ok (analysisResultOf failingSent ⟨5, 1⟩ "aaa\n\nbbb".data) :=
  c7_chunk_error_degraded failingSent ⟨5, 1⟩ "aaa\n\nbbb".data 0 "aaa".data
    "indisponivel" (by decide) rfl

/-! ## Claim C9: progress notifications increase monotonically -/

/-- Every later notification exceeds the counter, and its percentage is
the rounded fraction of its count. -/
theorem progressEmits_bounds (total : Nat) :
    ∀ (order : List Bool) (counter : Nat) (p : Nat × Nat),
      p ∈ progressEmits total counter order →
        counter < p.1 ∧ p.2 = pctRound p.1 total := by
  intro order
  induction order with
  | nil => intro counter p hp; simp [progressEmits] at hp
  | cons ok rest ih =>
    intro counter p hp
    cases ok
    · rw [progressEmits, if_neg (by simp)] at hp
      exact ih counter p hp
    · rw [progressEmits, if_pos rfl] at hp
      rcases List.mem_cons.mp hp with rfl | hp2
      · exact ⟨Nat.lt_succ_self _, rfl⟩
      · have h2 := ih (counter + 1) p hp2
        exact ⟨by omega, h2.2⟩

/-- Rounded percentages are monotone in the completed count. -/
theorem pctRound_mono (total c1 c2 : Nat) (h : c1 ≤ c2) :
    pctRound c1 total ≤ pctRound c2 total := by
  simp only [pctRound]
  exact Nat.div_le_div_right (by omega)

/-- Adjacent notifications strictly increase the count and weakly
increase the percentage. -/
theorem progressEmits_chain (total : Nat) :
    ∀ (order : List Bool) (counter : Nat),
      List.Chain' (fun p q : Nat × Nat => p.1 < q.1 ∧ p.2 ≤ q.2)
        (progressEmits total counter order) := by
  intro order
  induction order with
  | nil => intro counter; simp [progressEmits]
  | cons ok rest ih =>
    intro counter
    cases ok
    · rw [progressEmits, if_neg (by simp)]
      exact ih counter
    · rw [progressEmits, if_pos rfl]
      rw [List.chain'_cons']
      refine ⟨?_, ih (counter + 1)⟩
      intro q hq
      have hq2 := progressEmits_bounds total rest (counter + 1) q
        (List.mem_of_mem_head? hq)
      refine ⟨hq2.1, ?_⟩
      rw [hq2.2]
      exact pctRound_mono total _ _ (by omega)

/-- c9: in the notification sequence of a chunked analysis, under any
chunk completion order, the current counts are strictly increasing and
the rounded percentages are non-decreasing in call order. -/
theorem c9_progress_monotone (total : Nat) (order : List Bool) :
    List.Chain' (· < ·) ((progressEmits total 0 order).map Prod.fst) ∧
    List.Chain' (· ≤ ·) ((progressEmits total 0 order).map Prod.snd) := by
  have h := progressEmits_chain total order 0
  constructor
  · rw [List.chain'_map]
    exact h.imp (fun a b hpq => hpq.1)
  · rw [List.chain'_map]
    exact h.imp (fun a b hpq => hpq.2)

end LegalTextAnalyzer
